import Mathlib

/-!
Shallow embedding of `slack-command-spreedly-support`.

The embedded code:
* `Bot.prototype.responseFormatter` (src/lib/app/botkit.js, lines 73-98),
  a transform from a decoded API response object to a Slack attachment
  payload;
* `Bot.prototype.help` and `Bot.prototype.error` (same file, lines 27-71);
* `PaymentMethods.updateCreditCard`'s credit-card scrubbing
  (src/node_modules/node-spreedly/lib/modules/payment-methods.js,
  lines 236-263).

JavaScript values are modelled by the inductive `JSValue`; objects are
association lists of (key, value) pairs in insertion order.  `for (k in o)`
enumeration follows the ECMAScript own-property order: array-index keys
first in ascending numeric order, then the remaining string keys in
insertion order (`ownKeys`).  Property access on a missing key yields
`undefined`; code paths that would throw a `TypeError` at runtime are embedded
in `Except JSError`.
-/

set_option autoImplicit false

namespace Spreedly

universe u

variable {β : Type u} {γ : Type u}

/-- JavaScript runtime values, as far as the embedded code distinguishes
them.  `func` is an opaque function value (only its identity matters). -/
inductive JSValue where
  | null
  | undefined
  | bool (b : Bool)
  | num (n : Int)
  | str (s : String)
  | arr (elems : List JSValue)
  | obj (fields : List (String × JSValue))
  | func (id : Nat)
  deriving Repr

mutual

/-- Decidable equality of embedded values. -/
def decEqVal : (a b : JSValue) → Decidable (a = b)
  | .null, .null => isTrue rfl
  | .undefined, .undefined => isTrue rfl
  | .bool a, .bool b =>
      match decEq a b with
      | isTrue h => isTrue (by rw [h])
      | isFalse h => isFalse (fun hh => h (by injection hh))
  | .num a, .num b =>
      match decEq a b with
      | isTrue h => isTrue (by rw [h])
      | isFalse h => isFalse (fun hh => h (by injection hh))
  | .str a, .str b =>
      match decEq a b with
      | isTrue h => isTrue (by rw [h])
      | isFalse h => isFalse (fun hh => h (by injection hh))
  | .func a, .func b =>
      match decEq a b with
      | isTrue h => isTrue (by rw [h])
      | isFalse h => isFalse (fun hh => h (by injection hh))
  | .arr xs, .arr ys =>
      match decEqValList xs ys with
      | isTrue h => isTrue (by rw [h])
      | isFalse h => isFalse (fun hh => h (by injection hh))
  | .obj fs, .obj gs =>
      match decEqValFields fs gs with
      | isTrue h => isTrue (by rw [h])
      | isFalse h => isFalse (fun hh => h (by injection hh))
  | .null, .undefined | .null, .bool _ | .null, .num _ | .null, .str _
  | .null, .arr _ | .null, .obj _ | .null, .func _
  | .undefined, .null | .undefined, .bool _ | .undefined, .num _ | .undefined, .str _
  | .undefined, .arr _ | .undefined, .obj _ | .undefined, .func _
  | .bool _, .null | .bool _, .undefined | .bool _, .num _ | .bool _, .str _
  | .bool _, .arr _ | .bool _, .obj _ | .bool _, .func _
  | .num _, .null | .num _, .undefined | .num _, .bool _ | .num _, .str _
  | .num _, .arr _ | .num _, .obj _ | .num _, .func _
  | .str _, .null | .str _, .undefined | .str _, .bool _ | .str _, .num _
  | .str _, .arr _ | .str _, .obj _ | .str _, .func _
  | .arr _, .null | .arr _, .undefined | .arr _, .bool _ | .arr _, .num _
  | .arr _, .str _ | .arr _, .obj _ | .arr _, .func _
  | .obj _, .null | .obj _, .undefined | .obj _, .bool _ | .obj _, .num _
  | .obj _, .str _ | .obj _, .arr _ | .obj _, .func _
  | .func _, .null | .func _, .undefined | .func _, .bool _ | .func _, .num _
  | .func _, .str _ | .func _, .arr _ | .func _, .obj _ =>
      isFalse (by intro h; exact JSValue.noConfusion h)

/-- Decidable equality of value lists. -/
def decEqValList : (xs ys : List JSValue) → Decidable (xs = ys)
  | [], [] => isTrue rfl
  | [], _ :: _ => isFalse (by intro h; exact List.noConfusion h)
  | _ :: _, [] => isFalse (by intro h; exact List.noConfusion h)
  | x :: xs, y :: ys =>
      match decEqVal x y with
      | isFalse h => isFalse (fun hh => h (by injection hh))
      | isTrue h1 =>
          match decEqValList xs ys with
          | isTrue h2 => isTrue (by rw [h1, h2])
          | isFalse h2 => isFalse (fun hh => h2 (by injection hh))

/-- Decidable equality of field lists. -/
def decEqValFields : (xs ys : List (String × JSValue)) → Decidable (xs = ys)
  | [], [] => isTrue rfl
  | [], _ :: _ => isFalse (by intro h; exact List.noConfusion h)
  | _ :: _, [] => isFalse (by intro h; exact List.noConfusion h)
  | (k, v) :: xs, (k', v') :: ys =>
      match decEq k k' with
      | isFalse h => isFalse (fun hh => h (by cases hh; rfl))
      | isTrue hk =>
          match decEqVal v v' with
          | isFalse h => isFalse (fun hh => h (by cases hh; rfl))
          | isTrue hv =>
              match decEqValFields xs ys with
              | isTrue h2 => isTrue (by rw [hk, hv, h2])
              | isFalse h2 => isFalse (fun hh => h2 (by injection hh))

end

instance : DecidableEq JSValue := decEqVal

/-- First-match association-list lookup: `o[k]` restricted to own
properties, before the missing-key default is applied. -/
def lookupKey (k : String) : List (String × β) → Option β
  | [] => none
  | p :: ps => if p.1 = k then some p.2 else lookupKey k ps

/-- `o[k] = v` on a JavaScript object: replaces the value of an existing
key in place, otherwise appends the new key at the end (insertion order). -/
def setKey (k : String) (v : β) : List (String × β) → List (String × β)
  | [] => [(k, v)]
  | p :: ps => if p.1 = k then (k, v) :: ps else p :: setKey k v ps

/-- Decimal value of a digit list. -/
def digitsVal (cs : List Char) : Nat :=
  cs.foldl (fun acc c => 10 * acc + (c.toNat - 48)) 0

/-- An ECMAScript array-index key: the canonical decimal representation
(no leading zero) of an integer below `2^32 - 1`.  Returns the index. -/
def arrayIndex? (s : String) : Option Nat :=
  match s.data with
  | [] => none
  | c :: cs =>
      if (c :: cs).all Char.isDigit then
        if c = '0' ∧ cs ≠ [] then none
        else if digitsVal (c :: cs) < 4294967295 then some (digitsVal (c :: cs))
        else none
      else none

/-- Insert a (numeric index, key) pair into a list ascending by index. -/
def insertAsc (p : Nat × String) : List (Nat × String) → List (Nat × String)
  | [] => [p]
  | q :: qs => if p.1 ≤ q.1 then p :: q :: qs else q :: insertAsc p qs

/-- ECMAScript `[[OwnPropertyKeys]]` order for string keys: array-index
keys in ascending numeric order first, then the other keys in insertion
order.  This is the order `for (k in o)` visits own enumerable keys. -/
def ownKeys (fields : List (String × β)) : List String :=
  ((((fields.map Prod.fst).filterMap
      (fun k => (arrayIndex? k).map (fun n => (n, k)))).foldr insertAsc []).map Prod.snd)
    ++ (fields.map Prod.fst).filter (fun k => (arrayIndex? k).isNone)

/-- `for (k in o)` as a list of (key, value) pairs: own keys in
enumeration order, each paired with the object's value for it. -/
def forInPairs (fields : List (String × β)) : List (String × β) :=
  (ownKeys fields).filterMap (fun k => (lookupKey k fields).map (fun v => (k, v)))

/-- Lower-case hexadecimal digit. -/
def hexDigit (n : Nat) : Char :=
  if n < 10 then Char.ofNat (48 + n) else Char.ofNat (87 + n)

/-- JSON string-character escaping as performed by `JSON.stringify`. -/
def escapeChar (c : Char) : String :=
  if c = '"' then "\\\""
  else if c = '\\' then "\\\\"
  else if c = '\n' then "\\n"
  else if c = '\r' then "\\r"
  else if c = '\t' then "\\t"
  else if c = Char.ofNat 8 then "\\b"
  else if c = Char.ofNat 12 then "\\f"
  else if c.toNat < 32 then
    "\\u00" ++ String.mk [hexDigit (c.toNat / 16), hexDigit (c.toNat % 16)]
  else String.mk [c]

/-- Escape a whole string for inclusion in JSON text. -/
def jsonEscape (s : String) : String :=
  String.join (s.toList.map escapeChar)

/-- Order a list of serialized (key, fragment) pairs by own-property key
order, mirroring the enumeration `JSON.stringify` uses on objects. -/
def orderFragments (ps : List (String × Option String)) : List (String × Option String) :=
  (ownKeys ps).filterMap (fun k => (lookupKey k ps).map (fun v => (k, v)))

mutual

/-- `JSON.stringify` on the embedded values: `none` models the JavaScript
result `undefined` (for `undefined` and function values at top level). -/
def jsonStr : JSValue → Option String
  | .null => some "null"
  | .undefined => none
  | .func _ => none
  | .bool b => some (cond b "true" "false")
  | .num n => some (toString n)
  | .str s => some ("\"" ++ jsonEscape s ++ "\"")
  | .arr xs => some ("[" ++ String.intercalate "," (jsonStrElems xs) ++ "]")
  | .obj fs =>
      some ("\x7b" ++ String.intercalate ","
        ((orderFragments (jsonStrFields fs)).filterMap
          (fun p => p.2.map (fun frag => "\"" ++ jsonEscape p.1 ++ "\":" ++ frag)))
        ++ "\x7d")

/-- Array elements: `undefined` and functions serialize as `null`. -/
def jsonStrElems : List JSValue → List String
  | [] => []
  | v :: vs => ((jsonStr v).getD "null") :: jsonStrElems vs

/-- Object fields, serialized in the given order; `none` fragments are
properties `JSON.stringify` skips. -/
def jsonStrFields : List (String × JSValue) → List (String × Option String)
  | [] => []
  | p :: ps => (p.1, jsonStr p.2) :: jsonStrFields ps

end

/-- The JavaScript expression `JSON.stringify(val)` as a `JSValue`
(a string, or `undefined` when serialization yields no JSON text). -/
def jsonStringifyJS (v : JSValue) : JSValue :=
  match jsonStr v with
  | some s => .str s
  | none => .undefined

/-- One `{title, value, short}` field object of a Slack attachment. -/
structure FieldEntry where
  title : String
  value : JSValue
  short : Bool
  deriving Repr, DecidableEq

/-- One Slack attachment `{color, pretext, fields}` as built by the
formatter. -/
structure Attachment where
  color : String
  pretext : String
  fields : List FieldEntry
  deriving Repr, DecidableEq

/-- The `{attachments: [...]}` message object. -/
structure Payload where
  attachments : List Attachment
  deriving Repr, DecidableEq

/-- Runtime exceptions the embedded code can raise. -/
inductive JSError where
  | typeError
  deriving Repr, DecidableEq

instance {e a : Type} [DecidableEq e] [DecidableEq a] : DecidableEq (Except e a)
  | .ok x, .ok y =>
      match decEq x y with
      | isTrue h => isTrue (by rw [h])
      | isFalse h => isFalse (fun hh => h (by injection hh))
  | .error x, .error y =>
      match decEq x y with
      | isTrue h => isTrue (by rw [h])
      | isFalse h => isFalse (fun hh => h (by injection hh))
  | .ok _, .error _ => isFalse (by intro h; exact Except.noConfusion h)
  | .error _, .ok _ => isFalse (by intro h; exact Except.noConfusion h)

/-- The fixed attachment color `'#36a64f'`. -/
def slackColor : String := "#36a64f"

/-- A decoded API response: a JavaScript object given as its (key, value)
pairs in insertion order. -/
abbrev Record : Type := List (String × JSValue)

/-- The group accumulator `message`: group name to collected field
entries, in insertion order. -/
abbrev Msg : Type := List (String × List FieldEntry)

/-- `message['main'].push(entry)`: append to the entry list of the first
`'main'` group. -/
def pushMain (e : FieldEntry) : Msg → Msg
  | [] => []
  | p :: ps => if p.1 = "main" then ("main", p.2 ++ [e]) :: ps else p :: pushMain e ps

/-- The body of the first loop of `responseFormatter` for one key of
`data`: classify `val`, either starting a group for a plain object,
serializing `null`/arrays to JSON text, or pushing the value as-is.
Evaluating `val.constructor` on `undefined` throws a `TypeError`. -/
def stepKey (msg : Msg) (k : String) (v : JSValue) : Except JSError Msg :=
  match v with
  | .undefined => .error .typeError
  | .obj fs =>
      let msg1 := setKey k [] msg
      .ok (setKey k ((forInPairs fs).map (fun q => ⟨q.1, q.2, true⟩)) msg1)
  | .null => .ok (pushMain ⟨k, jsonStringifyJS .null, true⟩ msg)
  | .arr xs => .ok (pushMain ⟨k, jsonStringifyJS (.arr xs), true⟩ msg)
  | v => .ok (pushMain ⟨k, v, true⟩ msg)

/-- Run the first loop's body over a list of (key, value) pairs; a thrown
`TypeError` aborts the loop. -/
def runKeys (msg : Msg) : List (String × JSValue) → Except JSError Msg
  | [] => .ok msg
  | p :: ps =>
      match stepKey msg p.1 p.2 with
      | .error e => .error e
      | .ok msg' => runKeys msg' ps

/-- The first loop of `responseFormatter`: run `stepKey` over the keys of
`data` in `for..in` order, starting from `{'main': []}`. -/
def buildMessage (data : Record) : Except JSError Msg :=
  runKeys [("main", [])] (forInPairs data)

/-- `Bot.prototype.responseFormatter(data, type, token)`: build the group
accumulator, then emit one attachment per group in `for..in` order of the
accumulator object, labelling the `'main'` group with the response
context sentence and every other group with its key. -/
def responseFormatter (data : Record) (type token : String) : Except JSError Payload := do
  let message ← buildMessage data
  .ok ⟨(forInPairs message).map (fun p =>
    { color := slackColor
      pretext := if p.1 = "main" then
          "Spreedly response for " ++ type ++ " with token " ++ token
        else p.1
      fields := p.2 })⟩

/-- `Bot.prototype.help()`: the fixed three-attachment usage enumeration. -/
def help : Payload :=
  ⟨[{ color := slackColor
      pretext := "Transaction details: "
      fields := [⟨"Command", .str "/spreedly _transaction_ *TOKEN*", false⟩] },
    { color := slackColor
      pretext := "Payment Gateway details: "
      fields := [⟨"Command", .str "/spreedly _gateway_ *TOKEN*", false⟩] },
    { color := slackColor
      pretext := "Payment Method details: "
      fields := [⟨"Command", .str "/spreedly _payment-method_ *TOKEN*", false⟩] }]⟩

/-- Reading a property of a value: own property of an object, otherwise
`undefined` (a bare function value has no own `attachments` property). -/
def getProp (v : JSValue) (k : String) : JSValue :=
  match v with
  | .obj fs => (lookupKey k fs).getD .undefined
  | _ => .undefined

/-- `v.unshift(x)`: prepends on an array; on `undefined`/`null` property
access itself throws, and on any non-array `unshift` is not a function. -/
def callUnshift (v : JSValue) (x : JSValue) : Except JSError JSValue :=
  match v with
  | .arr xs => .ok (.arr (x :: xs))
  | _ => .error .typeError

/-- `Bot.prototype.error()` as written: `let help = this.help` binds the
function object itself (no call), so `help['attachments']` is `undefined`
and `.unshift(...)` throws a `TypeError`. -/
def errorFormatter : Except JSError JSValue :=
  let helpVal : JSValue := .func 0
  match callUnshift (getProp helpVal "attachments")
      (.obj [("pretext", .str "Type not recongnized.")]) with
  | .error e => .error e
  | .ok _ => .ok helpVal

/-! ### `PaymentMethods.updateCreditCard`: credit-card scrubbing -/

/-- JavaScript truthiness of the embedded values. -/
def truthy : JSValue → Bool
  | .null => false
  | .undefined => false
  | .bool b => b
  | .num n => n != 0
  | .str s => s != ""
  | .arr _ => true
  | .obj _ => true
  | .func _ => true

/-- `delete o.k`: remove the own property `k`. -/
def deleteKey (k : String) (fs : List (String × JSValue)) : List (String × JSValue) :=
  fs.filter (fun p => p.1 ≠ k)

/-- The two `if (creditCard.f) delete creditCard.f` statements of
`updateCreditCard`: `verificationValue` and `number` are each removed
only when the current value is truthy. -/
def scrubCreditCard (cc : List (String × JSValue)) : List (String × JSValue) :=
  let cc1 := if truthy (getProp (.obj cc) "verificationValue")
    then deleteKey "verificationValue" cc else cc
  if truthy (getProp (.obj cc1) "number")
    then deleteKey "number" cc1 else cc1

/-- The object handed to `util.preparePost('payment_method', ...)` as the
PUT request body source: `{ creditCard: creditCard }` after scrubbing. -/
def updateBody (cc : List (String × JSValue)) : JSValue :=
  .obj [("creditCard", .obj (scrubCreditCard cc))]

/-! ### Spec-side description of the formatter (for refinement claims)

These definitions follow the wording of the specification, not the code:
the main group collects the non-object keys in input order with nulls and
arrays shown as JSON text, and each object-valued key yields a group
labelled with the key, its sub-entries taken as-is. -/

/-- Is the value a non-null plain object (a nested Record)? -/
def isObjVal : JSValue → Bool
  | .obj _ => true
  | _ => false

/-- Display value per the spec: null and arrays as their JSON text,
scalars as-is. -/
def specDisplayValue : JSValue → JSValue
  | .null => jsonStringifyJS .null
  | .arr xs => jsonStringifyJS (.arr xs)
  | v => v

/-- The synthesized main group's fields per the spec: one entry per
non-object-valued key, in input order. -/
def specMainFields (data : Record) : List FieldEntry :=
  data.filterMap (fun p =>
    if isObjVal p.2 then none else some ⟨p.1, specDisplayValue p.2, true⟩)

/-- One group per object-valued key, in input order, labelled with the
key, holding the nested record's entries as-is. -/
def specObjGroups (data : Record) : List Attachment :=
  data.filterMap (fun p =>
    match p.2 with
    | .obj fs => some ⟨slackColor, p.1, fs.map (fun q => ⟨q.1, q.2, true⟩)⟩
    | _ => none)

/-- The full spec-side payload: main group first with the context
sentence, then the object-derived groups. -/
def specFormat (data : Record) (type token : String) : Payload :=
  ⟨⟨slackColor, "Spreedly response for " ++ type ++ " with token " ++ token,
    specMainFields data⟩ :: specObjGroups data⟩

/-- The group-accumulator entries the object-valued keys contribute, as
(group name, entries) pairs in input order. -/
def specGroupPairs (data : Record) : Msg :=
  data.filterMap (fun p =>
    match p.2 with
    | .obj fs => some (p.1, fs.map (fun q => ⟨q.1, q.2, true⟩))
    | _ => none)

/-! ### Well-formedness of input records -/

/-- No duplicate keys. -/
def nodupB : List String → Bool
  | [] => true
  | k :: ks => !ks.contains k && nodupB ks

/-- A key that is not an array index, so `for..in` keeps it in insertion
order. -/
def plainKeyB (k : String) : Bool := (arrayIndex? k).isNone

/-- A record on which the formatter behaves as the spec describes: keys
are unique and not array indices, no value is `undefined`, and every
nested record has unique non-index keys and is not stored under the
reserved key `'main'`. -/
def tame (data : Record) : Bool :=
  nodupB (data.map Prod.fst) &&
  data.all (fun p => plainKeyB p.1 &&
    match p.2 with
    | .undefined => false
    | .obj fs => p.1 != "main" && nodupB (fs.map Prod.fst)
        && fs.all (fun q => plainKeyB q.1)
    | _ => true)

/-! ### Heap-level embedding of the formatter

The pure embedding above cannot even express mutation of the input, so
the frame claim is settled against this second embedding of the same
source lines, with the JavaScript heap explicit: a store of object/array
cells addressed by allocation index.  `JSON.stringify` is a read-only
builtin and is passed in as an arbitrary function from store and value to
a primitive. -/

/-- Primitive (non-reference) runtime values. -/
inductive HPrim where
  | null
  | undefined
  | bool (b : Bool)
  | num (n : Int)
  | str (s : String)
  | func (id : Nat)
  deriving Repr, DecidableEq

/-- A runtime value: a primitive or a reference into the store. -/
inductive HVal where
  | prim (p : HPrim)
  | ref (a : Nat)
  deriving Repr, DecidableEq

/-- A heap cell: an object (ordered fields) or an array. -/
inductive HCell where
  | objC (fields : List (String × HVal))
  | arrC (elems : List HVal)
  deriving Repr, DecidableEq

/-- The heap: cells addressed by allocation index. -/
abbrev Store : Type := List HCell

/-- Allocate a fresh cell, returning the new store and its address. -/
def alloc (σ : Store) (c : HCell) : Store × Nat := (σ ++ [c], σ.length)

/-- `a.push(v)` on the array cell at `a` (no-op on a non-array). -/
def pushElem (σ : Store) (a : Nat) (v : HVal) : Store :=
  match σ[a]? with
  | some (.arrC es) => σ.set a (.arrC (es ++ [v]))
  | _ => σ

/-- `o[k] = v` on the object cell at `a` (no-op on a non-object). -/
def setField (σ : Store) (a : Nat) (k : String) (v : HVal) : Store :=
  match σ[a]? with
  | some (.objC fs) => σ.set a (.objC (setKey k v fs))
  | _ => σ

/-- `o[k]` on the object cell at `a` (`undefined` when absent). -/
def getField (σ : Store) (a : Nat) (k : String) : HVal :=
  match σ[a]? with
  | some (.objC fs) => (lookupKey k fs).getD (.prim .undefined)
  | _ => .prim .undefined

/-- Allocate a fresh `{title, value, short: true}` field-entry object. -/
def allocEntry (σ : Store) (title : String) (v : HVal) : Store × Nat :=
  alloc σ (.objC [("title", .prim (.str title)), ("value", v),
    ("short", .prim (.bool true))])

/-- Allocate a field entry and push a reference to it onto the array cell
at `arrAddr`. -/
def pushEntry (σ : Store) (arrAddr : Nat) (title : String) (v : HVal) : Store :=
  let p := allocEntry σ title v
  pushElem p.1 arrAddr (.ref p.2)

/-- `message[groupKey].push({title, value, short: true})`: read the group
array out of the `message` object at `msg`, then push a fresh entry. -/
def pushToGroup (σ : Store) (msg : Nat) (groupKey title : String) (v : HVal) : Store :=
  match getField σ msg groupKey with
  | .ref m => pushEntry σ m title v
  | _ => σ

/-- The (key, value) pairs `for (k in v)` enumerates: object fields in
own-key order, array elements under their index keys, nothing for
primitives. -/
def hOwnPairs (σ : Store) (v : HVal) : List (String × HVal) :=
  match v with
  | .ref a =>
      match σ[a]? with
      | some (.objC fs) => forInPairs fs
      | some (.arrC es) => es.enum.map (fun p => (Nat.repr p.1, p.2))
      | none => []
  | _ => []

/-- Classification of `val` by the chain of checks in the first loop:
`val.constructor` throws on `undefined`; plain objects open a group;
`null` and arrays are serialized to JSON text; anything else is pushed
as-is. -/
inductive HClass where
  | throwCase
  | objCase (fields : List (String × HVal))
  | jsonCase
  | scalarCase
  deriving Repr, DecidableEq

/-- Decide which branch of the first loop's body applies to `v`. -/
def classifyH (σ : Store) (v : HVal) : HClass :=
  match v with
  | .prim .undefined => .throwCase
  | .prim .null => .jsonCase
  | .ref a =>
      match σ[a]? with
      | some (.objC fs) => .objCase fs
      | some (.arrC _) => .jsonCase
      | none => .scalarCase
  | .prim _ => .scalarCase

/-- The first loop of `responseFormatter` over the heap: `msg` is the
address of the local `message` object; returns the store and whether the
loop ran to completion (`false` = a `TypeError` was thrown). -/
def heapLoop1 (js : Store → HVal → HPrim) (msg : Nat) :
    Store → List (String × HVal) → Store × Bool
  | σ, [] => (σ, true)
  | σ, (k, v) :: rest =>
      match classifyH σ v with
      | .throwCase => (σ, false)
      | .objCase fs =>
          let p := alloc σ (.arrC [])
          let σ2 := setField p.1 msg k (.ref p.2)
          let σ3 := (forInPairs fs).foldl
            (fun σ' q => pushToGroup σ' msg k q.1 q.2) σ2
          heapLoop1 js msg σ3 rest
      | .jsonCase =>
          heapLoop1 js msg (pushToGroup σ msg "main" k (.prim (js σ v))) rest
      | .scalarCase =>
          heapLoop1 js msg (pushToGroup σ msg "main" k v) rest

/-- The second loop: one attachment object per group of `message`, pushed
onto the `attachments` array at `attsArr`. -/
def heapLoop2 (type token : String) (msgFields : List (String × HVal))
    (attsArr : Nat) (σ : Store) : Store :=
  (forInPairs msgFields).foldl (fun σ' p =>
    let q := alloc σ' (.objC [("color", .prim (.str slackColor)),
      ("pretext", .prim (.str (if p.1 = "main" then
          "Spreedly response for " ++ type ++ " with token " ++ token
        else p.1))),
      ("fields", p.2)])
    pushElem q.1 attsArr (.ref q.2)) σ

/-- `responseFormatter` on the heap: allocate `{'main': []}`, run the
classification loop over `data`'s enumerable pairs, then build
`{attachments: [...]}`.  Returns the final store and the address of the
result object (`none` when a `TypeError` was thrown). -/
def heapResponseFormatter (js : Store → HVal → HPrim) (σ0 : Store)
    (dataV : HVal) (type token : String) : Store × Option Nat :=
  let pMain := alloc σ0 (.arrC [])
  let pMsg := alloc pMain.1 (.objC [("main", .ref pMain.2)])
  let r := heapLoop1 js pMsg.2 pMsg.1 (hOwnPairs pMsg.1 dataV)
  if r.2 then
    let pAtts := alloc r.1 (.arrC [])
    let pMts := alloc pAtts.1 (.objC [("attachments", .ref pAtts.2)])
    let msgFields := match pMts.1[pMsg.2]? with
      | some (.objC fs) => fs
      | _ => []
    (heapLoop2 type token msgFields pAtts.2 pMts.1, some pMts.2)
  else (r.1, none)

/-- Invariant of the frame proof: the local `message` object sits at
address `msg` at or above the watermark `n` (the input store's size), is
an object cell, and every reference its fields hold points at or above
`n` — so every address the loop writes through is above the input. -/
def msgCellOk (n : Nat) (σ : Store) (msg : Nat) : Prop :=
  n ≤ msg ∧ ∃ fs, σ[msg]? = some (HCell.objC fs)
    ∧ ∀ p ∈ fs, ∀ m, p.2 = HVal.ref m → n ≤ m

/-! ### Auxiliary observation functions for stating claims -/

/-- All field titles of a payload, across its groups. -/
def allFieldTitles (p : Payload) : List String :=
  p.attachments.foldr (fun g acc => g.fields.map FieldEntry.title ++ acc) []

/-- The labels (pretexts) of a payload's groups. -/
def groupLabels (p : Payload) : List String :=
  p.attachments.map Attachment.pretext

/-- Is the named field absent or truthy?  (`if (o.k) delete o.k` actually
fires exactly when the field is truthy.) -/
def fieldTruthyOrAbsent (cc : List (String × JSValue)) (k : String) : Bool :=
  match lookupKey k cc with
  | none => true
  | some v => truthy v

/-! ### Association-list lemmas -/

theorem lookupKey_cons_self {p : String × β} {ps : List (String × β)} :
    lookupKey p.1 (p :: ps) = some p.2 := by
  simp [lookupKey]

theorem lookupKey_cons_ne {k : String} {p : String × β} {ps : List (String × β)}
    (h : p.1 ≠ k) : lookupKey k (p :: ps) = lookupKey k ps := by
  simp [lookupKey, h]

theorem lookupKey_mem {k : String} {v : β} {l : List (String × β)}
    (h : lookupKey k l = some v) : (k, v) ∈ l := by
  induction l with
  | nil => simp [lookupKey] at h
  | cons p ps ih =>
      obtain ⟨k', v'⟩ := p
      by_cases hk : k' = k
      · subst hk
        rw [show lookupKey k' ((k', v') :: ps) = some v' from lookupKey_cons_self] at h
        cases h
        exact List.mem_cons_self _ _
      · rw [lookupKey_cons_ne (show ((k', v') : String × β).1 ≠ k from hk)] at h
        exact List.mem_cons_of_mem _ (ih h)

theorem lookupKey_eq_none_iff {k : String} {l : List (String × β)} :
    lookupKey k l = none ↔ ∀ p ∈ l, p.1 ≠ k := by
  induction l with
  | nil => simp [lookupKey]
  | cons p ps ih =>
      obtain ⟨k', v'⟩ := p
      by_cases hk : k' = k
      · subst hk
        rw [show lookupKey k' ((k', v') :: ps) = some v' from lookupKey_cons_self]
        constructor
        · intro h; simp at h
        · intro h
          exact absurd rfl (h (k', v') (List.mem_cons_self _ _))
      · rw [lookupKey_cons_ne (show ((k', v') : String × β).1 ≠ k from hk)]
        constructor
        · intro h q hq
          rcases List.mem_cons.mp hq with rfl | hq
          · exact hk
          · exact ih.mp h q hq
        · intro h
          exact ih.mpr (fun q hq => h q (List.mem_cons_of_mem _ hq))

theorem nodupB_cons {k : String} {ks : List String} :
    nodupB (k :: ks) = true ↔ ks.contains k = false ∧ nodupB ks = true := by
  simp [nodupB]

theorem contains_eq_false_iff {k : String} {ks : List String} :
    ks.contains k = false ↔ k ∉ ks := by
  rw [← Bool.not_eq_true, List.contains_iff_exists_mem_beq]
  simp

/-- On plain keys (no array index among them), `for..in` enumeration is
just insertion order. -/
theorem ownKeys_eq_of_plain (fields : List (String × β))
    (h : ∀ p ∈ fields, plainKeyB p.1 = true) :
    ownKeys fields = fields.map Prod.fst := by
  have hnone : ∀ p ∈ fields, arrayIndex? p.1 = none := by
    intro p hp
    have := h p hp
    simpa [plainKeyB, Option.isNone_iff_eq_none] using this
  unfold ownKeys
  have h1 : (fields.map Prod.fst).filterMap
      (fun k => (arrayIndex? k).map (fun n => (n, k))) = [] := by
    rw [List.filterMap_eq_nil_iff]
    intro k hk
    rcases List.mem_map.mp hk with ⟨p, hp, rfl⟩
    rw [hnone p hp]
    rfl
  have h2 : (fields.map Prod.fst).filter
      (fun k => (arrayIndex? k).isNone) = fields.map Prod.fst := by
    rw [List.filter_eq_self]
    intro k hk
    rcases List.mem_map.mp hk with ⟨p, hp, rfl⟩
    rw [hnone p hp]
    rfl
  rw [h1, h2]
  rfl

theorem filterMap_lookup_self (fields : List (String × β))
    (hnd : nodupB (fields.map Prod.fst) = true) :
    (fields.map Prod.fst).filterMap
      (fun k => (lookupKey k fields).map (fun v => (k, v))) = fields := by
  induction fields with
  | nil => rfl
  | cons p ps ih =>
      rw [List.map_cons] at hnd ⊢
      rcases nodupB_cons.mp hnd with ⟨hc, hnd'⟩
      have hnm : p.1 ∉ ps.map Prod.fst := contains_eq_false_iff.mp hc
      rw [List.filterMap_cons]
      rw [show lookupKey p.1 (p :: ps) = some p.2 from lookupKey_cons_self]
      simp only [Option.map_some']
      have hcong : ∀ k ∈ ps.map Prod.fst,
          (lookupKey k (p :: ps)).map (fun v => (k, v))
            = (lookupKey k ps).map (fun v => (k, v)) := by
        intro k hk
        have : p.1 ≠ k := fun h => hnm (h ▸ hk)
        rw [lookupKey_cons_ne this]
      rw [List.filterMap_congr hcong, ih hnd']

/-- On a well-formed record (unique plain keys) the `for..in` pair list is
the record itself. -/
theorem forInPairs_eq_self (fields : List (String × β))
    (hnd : nodupB (fields.map Prod.fst) = true)
    (hpl : ∀ p ∈ fields, plainKeyB p.1 = true) :
    forInPairs fields = fields := by
  unfold forInPairs
  rw [ownKeys_eq_of_plain fields hpl, filterMap_lookup_self fields hnd]

theorem nodupB_eq_true_iff {ks : List String} : nodupB ks = true ↔ ks.Nodup := by
  induction ks with
  | nil => simp [nodupB]
  | cons k ks ih =>
      rw [nodupB_cons, List.nodup_cons, ih, contains_eq_false_iff]

theorem setKey_of_not_mem {k : String} {v : β} {l : List (String × β)}
    (h : k ∉ l.map Prod.fst) : setKey k v l = l ++ [(k, v)] := by
  induction l with
  | nil => rfl
  | cons p ps ih =>
      rw [List.map_cons, List.mem_cons] at h
      push_neg at h
      rw [setKey, if_neg (fun hh => h.1 hh.symm), ih h.2, List.cons_append]

theorem setKey_setKey {k : String} {v v' : β} {l : List (String × β)} :
    setKey k v' (setKey k v l) = setKey k v' l := by
  induction l with
  | nil => simp [setKey]
  | cons p ps ih =>
      by_cases hk : p.1 = k
      · rw [setKey, if_pos hk, setKey, if_pos rfl, setKey, if_pos hk]
      · rw [setKey, if_neg hk, setKey, if_neg hk, setKey, if_neg hk, ih]

theorem pushMain_cons_main {mf : List FieldEntry} {rest : Msg} {e : FieldEntry} :
    pushMain e (("main", mf) :: rest) = ("main", mf ++ [e]) :: rest := by
  simp [pushMain]

/-- The heart of the first loop: starting from a `message` accumulator
whose head is the `'main'` group, running the loop over a well-behaved
record appends the non-object entries to `'main'` and one group per
object-valued key at the end, in order. -/
theorem runKeys_append (data : Record) :
    ∀ (mf : List FieldEntry) (rest : Msg),
    (∀ p ∈ data, p.2 ≠ JSValue.undefined) →
    (∀ p ∈ data, ∀ fs, p.2 = JSValue.obj fs →
      p.1 ≠ "main" ∧ p.1 ∉ rest.map Prod.fst ∧ forInPairs fs = fs) →
    (data.map Prod.fst).Nodup →
    runKeys (("main", mf) :: rest) data
      = .ok (("main", mf ++ specMainFields data) :: (rest ++ specGroupPairs data)) := by
  induction data with
  | nil =>
      intro mf rest _ _ _
      simp [runKeys, specMainFields, specGroupPairs]
  | cons p ps ih =>
      intro mf rest hundef hobj hnd
      obtain ⟨k, v⟩ := p
      rw [List.map_cons, List.nodup_cons] at hnd
      have hndtl := hnd.2
      have hknotin : k ∉ ps.map Prod.fst := hnd.1
      have hundef' : ∀ q ∈ ps, q.2 ≠ JSValue.undefined :=
        fun q hq => hundef q (List.mem_cons_of_mem _ hq)
      have hobjtl := fun q hq => hobj q (List.mem_cons_of_mem _ hq)
      cases v with
      | undefined => exact absurd rfl (hundef (k, .undefined) (List.mem_cons_self _ _))
      | obj fs =>
          obtain ⟨hkm0, hkr0, hfp⟩ :=
            hobj (k, .obj fs) (List.mem_cons_self _ _) fs rfl
          have hkm : k ≠ "main" := hkm0
          have hkr : k ∉ rest.map Prod.fst := hkr0
          simp only [runKeys, stepKey]
          rw [setKey_setKey, hfp]
          have hsk : setKey k (fs.map (fun q => (⟨q.1, q.2, true⟩ : FieldEntry)))
                (("main", mf) :: rest)
              = ("main", mf) :: setKey k (fs.map (fun q => ⟨q.1, q.2, true⟩)) rest := by
            rw [setKey, if_neg (show ¬(("main", mf).1 = k) from fun hh => hkm hh.symm)]
          rw [hsk, setKey_of_not_mem hkr]
          have hobj' : ∀ q ∈ ps, ∀ gs, q.2 = JSValue.obj gs →
              q.1 ≠ "main"
                ∧ q.1 ∉ (rest ++ [(k, fs.map (fun q => (⟨q.1, q.2, true⟩ : FieldEntry)))]).map Prod.fst
                ∧ forInPairs gs = gs := by
            intro q hq gs hgs
            obtain ⟨h1, h2, h3⟩ := hobjtl q hq gs hgs
            refine ⟨h1, ?_, h3⟩
            rw [List.map_append, List.mem_append]
            rintro (hh | hh)
            · exact h2 hh
            · simp only [List.map_cons, List.map_nil, List.mem_singleton] at hh
              exact hknotin (hh ▸ List.mem_map_of_mem Prod.fst hq)
          rw [ih mf (rest ++ [(k, fs.map (fun q => (⟨q.1, q.2, true⟩ : FieldEntry)))]) hundef' hobj' hndtl]
          simp [specMainFields, specGroupPairs, List.filterMap_cons, isObjVal]
      | null =>
          simp only [runKeys, stepKey]
          rw [pushMain_cons_main,
            ih (mf ++ [(⟨k, jsonStringifyJS .null, true⟩ : FieldEntry)]) rest hundef' hobjtl hndtl]
          simp [specMainFields, specGroupPairs, specDisplayValue, List.filterMap_cons, isObjVal]
      | arr xs =>
          simp only [runKeys, stepKey]
          rw [pushMain_cons_main,
            ih (mf ++ [(⟨k, jsonStringifyJS (.arr xs), true⟩ : FieldEntry)]) rest hundef' hobjtl hndtl]
          simp [specMainFields, specGroupPairs, specDisplayValue, List.filterMap_cons, isObjVal]
      | bool b =>
          simp only [runKeys, stepKey]
          rw [pushMain_cons_main,
            ih (mf ++ [(⟨k, .bool b, true⟩ : FieldEntry)]) rest hundef' hobjtl hndtl]
          simp [specMainFields, specGroupPairs, specDisplayValue, List.filterMap_cons, isObjVal]
      | num n =>
          simp only [runKeys, stepKey]
          rw [pushMain_cons_main,
            ih (mf ++ [(⟨k, .num n, true⟩ : FieldEntry)]) rest hundef' hobjtl hndtl]
          simp [specMainFields, specGroupPairs, specDisplayValue, List.filterMap_cons, isObjVal]
      | str s =>
          simp only [runKeys, stepKey]
          rw [pushMain_cons_main,
            ih (mf ++ [(⟨k, .str s, true⟩ : FieldEntry)]) rest hundef' hobjtl hndtl]
          simp [specMainFields, specGroupPairs, specDisplayValue, List.filterMap_cons, isObjVal]
      | func i =>
          simp only [runKeys, stepKey]
          rw [pushMain_cons_main,
            ih (mf ++ [(⟨k, .func i, true⟩ : FieldEntry)]) rest hundef' hobjtl hndtl]
          simp [specMainFields, specGroupPairs, specDisplayValue, List.filterMap_cons, isObjVal]

theorem mem_specGroupPairs {data : Record} {q : String × List FieldEntry}
    (h : q ∈ specGroupPairs data) :
    ∃ fs, (q.1, JSValue.obj fs) ∈ data
      ∧ q.2 = fs.map (fun r => (⟨r.1, r.2, true⟩ : FieldEntry)) := by
  unfold specGroupPairs at h
  rcases List.mem_filterMap.mp h with ⟨p, hp, he⟩
  cases hv : p.2 with
  | obj fs =>
      rw [hv] at he
      simp only [Option.some.injEq] at he
      refine ⟨fs, ?_, ?_⟩
      · have hpe : p = (q.1, JSValue.obj fs) := by
          rw [← he]; rw [← hv]
        exact hpe ▸ hp
      · rw [← he]
  | null => rw [hv] at he; cases he
  | undefined => rw [hv] at he; cases he
  | bool b => rw [hv] at he; cases he
  | num n => rw [hv] at he; cases he
  | str s => rw [hv] at he; cases he
  | arr xs => rw [hv] at he; cases he
  | func i => rw [hv] at he; cases he

theorem specGroupPairs_keys_sublist (data : Record) :
    ((specGroupPairs data).map Prod.fst).Sublist (data.map Prod.fst) := by
  induction data with
  | nil => simp [specGroupPairs]
  | cons p ps ih =>
      cases hv : p.2 with
      | obj fs =>
          simp only [specGroupPairs, List.filterMap_cons, hv, List.map_cons]
          exact List.Sublist.cons₂ _ ih
      | null =>
          simp only [specGroupPairs, List.filterMap_cons, hv, List.map_cons]
          exact List.Sublist.cons _ ih
      | undefined =>
          simp only [specGroupPairs, List.filterMap_cons, hv, List.map_cons]
          exact List.Sublist.cons _ ih
      | bool b =>
          simp only [specGroupPairs, List.filterMap_cons, hv, List.map_cons]
          exact List.Sublist.cons _ ih
      | num n =>
          simp only [specGroupPairs, List.filterMap_cons, hv, List.map_cons]
          exact List.Sublist.cons _ ih
      | str s =>
          simp only [specGroupPairs, List.filterMap_cons, hv, List.map_cons]
          exact List.Sublist.cons _ ih
      | arr xs =>
          simp only [specGroupPairs, List.filterMap_cons, hv, List.map_cons]
          exact List.Sublist.cons _ ih
      | func i =>
          simp only [specGroupPairs, List.filterMap_cons, hv, List.map_cons]
          exact List.Sublist.cons _ ih

theorem specGroupPairs_cons_obj (k : String) (fs : List (String × JSValue))
    (ps : Record) :
    specGroupPairs ((k, JSValue.obj fs) :: ps)
      = (k, fs.map (fun q => (⟨q.1, q.2, true⟩ : FieldEntry))) :: specGroupPairs ps := by
  simp [specGroupPairs, List.filterMap_cons]

theorem specObjGroups_cons_obj (k : String) (fs : List (String × JSValue))
    (ps : Record) :
    specObjGroups ((k, JSValue.obj fs) :: ps)
      = (⟨slackColor, k, fs.map (fun q => ⟨q.1, q.2, true⟩)⟩ : Attachment)
          :: specObjGroups ps := by
  simp [specObjGroups, List.filterMap_cons]

theorem specGroupPairs_cons_nonobj (v : JSValue) (k : String) (ps : Record)
    (h : isObjVal v = false) :
    specGroupPairs ((k, v) :: ps) = specGroupPairs ps := by
  cases v <;> simp_all [specGroupPairs, List.filterMap_cons, isObjVal]

theorem specObjGroups_cons_nonobj (v : JSValue) (k : String) (ps : Record)
    (h : isObjVal v = false) :
    specObjGroups ((k, v) :: ps) = specObjGroups ps := by
  cases v <;> simp_all [specObjGroups, List.filterMap_cons, isObjVal]

theorem map_specGroupPairs (data : Record) (S : String)
    (h : ∀ p ∈ data, ∀ fs, p.2 = JSValue.obj fs → p.1 ≠ "main") :
    (specGroupPairs data).map (fun p =>
        ({ color := slackColor,
           pretext := if p.1 = "main" then S else p.1,
           fields := p.2 } : Attachment))
      = specObjGroups data := by
  induction data with
  | nil => rfl
  | cons p ps ih =>
      have htl := fun q hq fs hfs => h q (List.mem_cons_of_mem _ hq) fs hfs
      obtain ⟨k, v⟩ := p
      cases v with
      | obj fs =>
          have hne : k ≠ "main" := h (k, .obj fs) (List.mem_cons_self _ _) fs rfl
          rw [specGroupPairs_cons_obj, specObjGroups_cons_obj, List.map_cons, ih htl]
          simp [hne]
      | null =>
          rw [specGroupPairs_cons_nonobj JSValue.null k ps rfl,
            specObjGroups_cons_nonobj JSValue.null k ps rfl]
          exact ih htl
      | undefined =>
          rw [specGroupPairs_cons_nonobj JSValue.undefined k ps rfl,
            specObjGroups_cons_nonobj JSValue.undefined k ps rfl]
          exact ih htl
      | bool b =>
          rw [specGroupPairs_cons_nonobj (.bool b) k ps rfl,
            specObjGroups_cons_nonobj (.bool b) k ps rfl]
          exact ih htl
      | num n =>
          rw [specGroupPairs_cons_nonobj (.num n) k ps rfl,
            specObjGroups_cons_nonobj (.num n) k ps rfl]
          exact ih htl
      | str s =>
          rw [specGroupPairs_cons_nonobj (.str s) k ps rfl,
            specObjGroups_cons_nonobj (.str s) k ps rfl]
          exact ih htl
      | arr xs =>
          rw [specGroupPairs_cons_nonobj (.arr xs) k ps rfl,
            specObjGroups_cons_nonobj (.arr xs) k ps rfl]
          exact ih htl
      | func i =>
          rw [specGroupPairs_cons_nonobj (.func i) k ps rfl,
            specObjGroups_cons_nonobj (.func i) k ps rfl]
          exact ih htl

/-- Unpack the `tame` record predicate into its propositional parts. -/
theorem tame_spec {data : Record} (h : tame data = true) :
    nodupB (data.map Prod.fst) = true
    ∧ (∀ p ∈ data, plainKeyB p.1 = true)
    ∧ (∀ p ∈ data, p.2 ≠ JSValue.undefined)
    ∧ (∀ p ∈ data, ∀ fs, p.2 = JSValue.obj fs →
        p.1 ≠ "main" ∧ nodupB (fs.map Prod.fst) = true
          ∧ (∀ q ∈ fs, plainKeyB q.1 = true)) := by
  unfold tame at h
  rw [Bool.and_eq_true] at h
  have h2 := List.all_eq_true.mp h.2
  refine ⟨h.1, ?_, ?_, ?_⟩
  · intro p hp
    have hx := h2 p hp
    rw [Bool.and_eq_true] at hx
    exact hx.1
  · intro p hp heq
    have hx := h2 p hp
    rw [Bool.and_eq_true] at hx
    have := hx.2
    rw [heq] at this
    simp at this
  · intro p hp fs heq
    have hx := h2 p hp
    rw [Bool.and_eq_true] at hx
    have := hx.2
    rw [heq] at this
    rw [Bool.and_eq_true, Bool.and_eq_true] at this
    refine ⟨?_, this.1.2, List.all_eq_true.mp this.2⟩
    have := this.1.1
    simpa using this

/-- Characterization of the formatter on well-behaved records: it computes
exactly the spec-side payload. -/
theorem responseFormatter_eq_specFormat (data : Record) (t tk : String)
    (h : tame data = true) :
    responseFormatter data t tk = .ok (specFormat data t tk) := by
  obtain ⟨hnb, hpl, hud, hob⟩ := tame_spec h
  have hnd : (data.map Prod.fst).Nodup := nodupB_eq_true_iff.mp hnb
  have hfi : forInPairs data = data := forInPairs_eq_self data hnb hpl
  have hobj : ∀ p ∈ data, ∀ fs, p.2 = JSValue.obj fs →
      p.1 ≠ "main" ∧ p.1 ∉ ([] : Msg).map Prod.fst ∧ forInPairs fs = fs := by
    intro p hp fs hfs
    obtain ⟨h1, h2, h3⟩ := hob p hp fs hfs
    exact ⟨h1, by simp, forInPairs_eq_self fs h2 h3⟩
  have hbm : buildMessage data
      = .ok (("main", specMainFields data) :: specGroupPairs data) := by
    unfold buildMessage
    rw [hfi]
    have := runKeys_append data [] [] hud hobj hnd
    simpa using this
  have hgkeys : ∀ q ∈ specGroupPairs data, plainKeyB q.1 = true ∧ q.1 ≠ "main" := by
    intro q hq
    obtain ⟨fs, hmem, -⟩ := mem_specGroupPairs hq
    exact ⟨hpl (q.1, .obj fs) hmem, (hob (q.1, .obj fs) hmem fs rfl).1⟩
  have hplM : ∀ p ∈ ("main", specMainFields data) :: specGroupPairs data,
      plainKeyB p.1 = true := by
    intro p hp
    rcases List.mem_cons.mp hp with rfl | hp
    · rfl
    · exact (hgkeys p hp).1
  have hndM : nodupB ((("main", specMainFields data) :: specGroupPairs data).map
      Prod.fst) = true := by
    rw [nodupB_eq_true_iff, List.map_cons, List.nodup_cons]
    refine ⟨?_, hnd.sublist (specGroupPairs_keys_sublist data)⟩
    intro hmem
    rcases List.mem_map.mp hmem with ⟨q, hq, hq1⟩
    exact (hgkeys q hq).2 hq1
  have hfiM := forInPairs_eq_self
    (("main", specMainFields data) :: specGroupPairs data) hndM hplM
  unfold responseFormatter
  rw [hbm]
  show Except.ok _ = _
  rw [hfiM, List.map_cons,
    map_specGroupPairs data ("Spreedly response for " ++ t ++ " with token " ++ tk)
      (fun p hp fs hfs => (hob p hp fs hfs).1)]
  simp [specFormat]

/-! ### Totality lemmas -/

theorem runKeys_ok (l : List (String × JSValue)) :
    ∀ msg, (∀ p ∈ l, p.2 ≠ JSValue.undefined) → ∃ m, runKeys msg l = .ok m := by
  induction l with
  | nil => intro msg _; exact ⟨msg, rfl⟩
  | cons p ps ih =>
      intro msg hu
      obtain ⟨k, v⟩ := p
      have hv : v ≠ .undefined := hu (k, v) (List.mem_cons_self _ _)
      have htl := fun q hq => hu q (List.mem_cons_of_mem _ hq)
      cases v with
      | undefined => exact absurd rfl hv
      | obj fs =>
          simp only [runKeys, stepKey]
          exact ih _ htl
      | null =>
          simp only [runKeys, stepKey]
          exact ih _ htl
      | arr xs =>
          simp only [runKeys, stepKey]
          exact ih _ htl
      | bool b =>
          simp only [runKeys, stepKey]
          exact ih _ htl
      | num n =>
          simp only [runKeys, stepKey]
          exact ih _ htl
      | str s =>
          simp only [runKeys, stepKey]
          exact ih _ htl
      | func i =>
          simp only [runKeys, stepKey]
          exact ih _ htl

theorem mem_forInPairs_values {l : List (String × JSValue)} {p : String × JSValue}
    (h : p ∈ forInPairs l) : ∃ q ∈ l, q.2 = p.2 := by
  unfold forInPairs at h
  rcases List.mem_filterMap.mp h with ⟨k, _, he⟩
  cases hl : lookupKey k l with
  | none => rw [hl] at he; cases he
  | some v =>
      rw [hl] at he
      simp only [Option.map_some', Option.some.injEq] at he
      exact ⟨(k, v), lookupKey_mem hl, by rw [← he]⟩

/-! ### Field-title and label projections of the spec-side payload -/

theorem specMainFields_titles (data : Record) :
    (specMainFields data).map FieldEntry.title
      = (data.filter (fun p => !isObjVal p.2)).map Prod.fst := by
  induction data with
  | nil => rfl
  | cons p ps ih =>
      obtain ⟨k, v⟩ := p
      cases v <;>
        simp [specMainFields, List.filterMap_cons, List.filter_cons, isObjVal, ih] <;>
        exact ih

theorem specObjGroups_labels (data : Record) :
    (specObjGroups data).map Attachment.pretext
      = (data.filter (fun p => isObjVal p.2)).map Prod.fst := by
  induction data with
  | nil => rfl
  | cons p ps ih =>
      obtain ⟨k, v⟩ := p
      cases v <;>
        simp [specObjGroups, List.filterMap_cons, List.filter_cons, isObjVal, ih] <;>
        exact ih

/-! ### `deleteKey` lemmas for the credit-card scrubbing -/

theorem deleteKey_of_lookup_none {k : String} {l : List (String × JSValue)}
    (h : lookupKey k l = none) : deleteKey k l = l := by
  have hne := lookupKey_eq_none_iff.mp h
  unfold deleteKey
  rw [List.filter_eq_self]
  intro p hp
  simpa using hne p hp

theorem lookupKey_deleteKey_self {k : String} {l : List (String × JSValue)} :
    lookupKey k (deleteKey k l) = none := by
  rw [lookupKey_eq_none_iff]
  intro p hp
  have := List.of_mem_filter hp
  simpa using this

theorem lookupKey_deleteKey_ne {k k' : String} {l : List (String × JSValue)}
    (h : k ≠ k') : lookupKey k (deleteKey k' l) = lookupKey k l := by
  induction l with
  | nil => rfl
  | cons p ps ih =>
      unfold deleteKey at ih ⊢
      rw [List.filter_cons]
      by_cases hp : p.1 = k'
      · rw [if_neg (by simpa using hp)]
        rw [ih, lookupKey_cons_ne (fun hh => h (hh.symm.trans hp))]
      · rw [if_pos (by simpa using hp)]
        by_cases hk : p.1 = k
        · subst hk
          rw [show lookupKey p.1 (p :: List.filter _ ps) = some p.2 from lookupKey_cons_self,
            show lookupKey p.1 (p :: ps) = some p.2 from lookupKey_cons_self]
        · rw [lookupKey_cons_ne hk, lookupKey_cons_ne hk, ih]

theorem scrubCreditCard_eq (cc : List (String × JSValue))
    (h1 : fieldTruthyOrAbsent cc "verificationValue" = true)
    (h2 : fieldTruthyOrAbsent cc "number" = true) :
    scrubCreditCard cc = deleteKey "number" (deleteKey "verificationValue" cc) := by
  unfold scrubCreditCard
  unfold fieldTruthyOrAbsent at h1 h2
  have step1 : (if truthy (getProp (.obj cc) "verificationValue")
      then deleteKey "verificationValue" cc else cc)
      = deleteKey "verificationValue" cc := by
    cases hvv : lookupKey "verificationValue" cc with
    | none =>
        rw [deleteKey_of_lookup_none hvv]
        simp [getProp, hvv, truthy]
    | some v =>
        rw [hvv] at h1
        have h1' : truthy v = true := h1
        simp [getProp, hvv, h1']
  rw [step1]
  have hnum : lookupKey "number" (deleteKey "verificationValue" cc)
      = lookupKey "number" cc := lookupKey_deleteKey_ne (by decide)
  cases hn : lookupKey "number" cc with
  | none =>
      rw [deleteKey_of_lookup_none (hnum.trans hn)]
      simp [getProp, hnum, hn, truthy]
  | some v =>
      rw [hn] at h2
      have h2' : truthy v = true := h2
      simp [getProp, hnum, hn, h2']

/-! ### The claims -/

/-- C1 (amended to records without an object-valued key `'main'`, with
unique non-index keys and no `undefined` values): every top-level key
appears exactly once in the output — non-object-valued keys as the titles
of the `'main'` group's fields in input order, object-valued keys as the
labels of the object-derived groups in input order, never both, never
dropped. -/
theorem claimC1 (data : Record) (t tk : String) (h : tame data = true) :
    ∃ mainAtt objAtts, responseFormatter data t tk = .ok ⟨mainAtt :: objAtts⟩
      ∧ mainAtt.fields.map FieldEntry.title
          = (data.filter (fun p => !isObjVal p.2)).map Prod.fst
      ∧ objAtts.map Attachment.pretext
          = (data.filter (fun p => isObjVal p.2)).map Prod.fst := by
  refine ⟨_, _, responseFormatter_eq_specFormat data t tk h, ?_, ?_⟩
  · exact specMainFields_titles data
  · exact specObjGroups_labels data

/-- Witness for C1 at a concrete record. -/
theorem claimC1_witness :
    tame [("token", JSValue.str "T1"),
      ("details", JSValue.obj [("name", JSValue.str "x")])] = true
    ∧ ∃ mainAtt objAtts,
        responseFormatter [("token", JSValue.str "T1"),
          ("details", JSValue.obj [("name", JSValue.str "x")])] "t" "tk"
          = .ok ⟨mainAtt :: objAtts⟩
        ∧ mainAtt.fields.map FieldEntry.title
            = ([("token", JSValue.str "T1"),
                ("details", JSValue.obj [("name", JSValue.str "x")])].filter
                (fun p => !isObjVal p.2)).map Prod.fst
        ∧ objAtts.map Attachment.pretext
            = ([("token", JSValue.str "T1"),
                ("details", JSValue.obj [("name", JSValue.str "x")])].filter
                (fun p => isObjVal p.2)).map Prod.fst :=
  ⟨by decide, claimC1 _ "t" "tk" (by decide)⟩

/-- C1 counterexample: with an object-valued key `'main'`, the key `'a'`
is dropped from the output entirely and `'main'` labels no group, because
`message['main'] = []` wipes the synthesized main accumulator. -/
theorem claimC1_counterexample :
    responseFormatter [("a", JSValue.num 1), ("main", JSValue.obj [("x", JSValue.num 2)])]
        "t" "k"
      = .ok ⟨[⟨slackColor, "Spreedly response for t with token k",
          [⟨"x", JSValue.num 2, true⟩]⟩]⟩
    ∧ "a" ∉ allFieldTitles ⟨[⟨slackColor, "Spreedly response for t with token k",
        [⟨"x", JSValue.num 2, true⟩]⟩]⟩
    ∧ "main" ∉ groupLabels ⟨[⟨slackColor, "Spreedly response for t with token k",
        [⟨"x", JSValue.num 2, true⟩]⟩]⟩ := by
  refine ⟨by decide, by decide, by decide⟩

/-- C2 (amended to records with no `undefined`-valued key): the formatter
returns a payload for every such record; unrecognized shapes such as
function values fall back to the scalar push.  An `undefined` value makes
`val.constructor` throw, refuting totality as claimed. -/
theorem claimC2 (data : Record) (t tk : String)
    (h : ∀ p ∈ data, p.2 ≠ JSValue.undefined) :
    ∃ pay, responseFormatter data t tk = .ok pay := by
  have h' : ∀ p ∈ forInPairs data, p.2 ≠ JSValue.undefined := by
    intro p hp
    obtain ⟨q, hq, he⟩ := mem_forInPairs_values hp
    rw [← he]
    exact h q hq
  obtain ⟨m, hm⟩ := runKeys_ok (forInPairs data) [("main", [])] h'
  refine ⟨⟨(forInPairs m).map (fun p =>
      ({ color := slackColor,
         pretext := if p.1 = "main" then
             "Spreedly response for " ++ t ++ " with token " ++ tk
           else p.1,
         fields := p.2 } : Attachment))⟩, ?_⟩
  unfold responseFormatter buildMessage
  rw [hm]
  rfl

/-- Witness for C2 at a record holding a function value. -/
theorem claimC2_witness :
    (∀ p ∈ ([("handler", JSValue.func 0)] : Record), p.2 ≠ JSValue.undefined)
    ∧ ∃ pay, responseFormatter [("handler", JSValue.func 0)] "t" "tk" = .ok pay :=
  ⟨by decide, claimC2 _ "t" "tk" (by decide)⟩

/-- C2 counterexample: an `undefined` value throws a `TypeError`. -/
theorem claimC2_counterexample :
    responseFormatter [("a", JSValue.undefined)] "gateway" "T1"
      = .error .typeError := by decide

/-- C3: `Bot.prototype.error` as written binds the function `this.help`
without calling it, so `help['attachments']` is `undefined` and
`.unshift` throws a `TypeError`; the call never returns the prepended
help payload the spec describes (which `help` itself, with its three
usage groups, does exist). -/
theorem claimC3 :
    errorFormatter = .error .typeError
    ∧ help.attachments.map Attachment.pretext
        = ["Transaction details: ", "Payment Gateway details: ",
           "Payment Method details: "] :=
  ⟨rfl, rfl⟩

/-- C4 (amended to records without array-index keys, without an
object-valued `'main'` key, with unique keys and no `undefined` values):
the output is exactly the spec-side payload — the `'main'` group first,
labelled with the context sentence, then one group per object-valued key
in input order labelled verbatim, with fields in input order. -/
theorem claimC4 (data : Record) (t tk : String) (h : tame data = true) :
    responseFormatter data t tk = .ok (specFormat data t tk) :=
  responseFormatter_eq_specFormat data t tk h

/-- Witness for C4 at a concrete record. -/
theorem claimC4_witness :
    tame [("token", JSValue.str "T1"),
      ("details", JSValue.obj [("name", JSValue.str "x")])] = true
    ∧ responseFormatter [("token", JSValue.str "T1"),
        ("details", JSValue.obj [("name", JSValue.str "x")])] "payment-method" "T1"
      = .ok (specFormat [("token", JSValue.str "T1"),
          ("details", JSValue.obj [("name", JSValue.str "x")])] "payment-method" "T1") :=
  ⟨by decide, claimC4 _ "payment-method" "T1" (by decide)⟩

/-- C4 counterexample: an array-index key `'0'` is enumerated before
`'main'` by `for..in`, so its group precedes the main group. -/
theorem claimC4_counterexample :
    responseFormatter [("0", JSValue.obj [])] "t" "k"
      = .ok ⟨[⟨slackColor, "0", []⟩,
          ⟨slackColor, "Spreedly response for t with token k", []⟩]⟩
    ∧ groupLabels ⟨[⟨slackColor, "0", []⟩,
        ⟨slackColor, "Spreedly response for t with token k", []⟩]⟩
      = ["0", "Spreedly response for t with token k"] := by
  refine ⟨by decide, by decide⟩

/-- C5: on a tame record, every non-object-valued key contributes the
field `{title: key, value: display value, short: true}` to the main
group, where the display value is the JSON text for `null` (the literal
text `"null"`) and for arrays, and the value itself for scalars. -/
theorem claimC5 (data : Record) (t tk : String) (k : String) (v : JSValue)
    (h : tame data = true) (hk : (k, v) ∈ data) (hv : isObjVal v = false) :
    ∃ mainAtt rest, responseFormatter data t tk = .ok ⟨mainAtt :: rest⟩
      ∧ (⟨k, specDisplayValue v, true⟩ : FieldEntry) ∈ mainAtt.fields
      ∧ (v = .null → specDisplayValue v = .str "null")
      ∧ (∀ xs, v = .arr xs → specDisplayValue v = jsonStringifyJS (.arr xs))
      ∧ ((v ≠ .null ∧ ∀ xs, v ≠ .arr xs) → specDisplayValue v = v) := by
  refine ⟨_, _, responseFormatter_eq_specFormat data t tk h, ?_, ?_, ?_, ?_⟩
  · unfold specMainFields
    apply List.mem_filterMap.mpr
    refine ⟨(k, v), hk, ?_⟩
    simp [hv]
  · intro hn; rw [hn]; rfl
  · intro xs hx; rw [hx]; rfl
  · rintro ⟨hn, ha⟩
    cases v with
    | null => exact absurd rfl hn
    | arr xs => exact absurd rfl (ha xs)
    | obj fs => simp [isObjVal] at hv
    | undefined => rfl
    | bool b => rfl
    | num n => rfl
    | str s => rfl
    | func i => rfl

/-- Witness for C5 at the spec's `{tags: null}` and `{list: [1,2,3]}`
examples. -/
theorem claimC5_witness :
    tame [("tags", JSValue.null)] = true
    ∧ (∃ mainAtt rest,
        responseFormatter [("tags", JSValue.null)] "gateway" "T2" = .ok ⟨mainAtt :: rest⟩
        ∧ (⟨"tags", specDisplayValue JSValue.null, true⟩ : FieldEntry) ∈ mainAtt.fields
        ∧ (JSValue.null = .null → specDisplayValue JSValue.null = .str "null")
        ∧ (∀ xs, JSValue.null = .arr xs
            → specDisplayValue JSValue.null = jsonStringifyJS (.arr xs))
        ∧ ((JSValue.null ≠ .null ∧ ∀ xs, JSValue.null ≠ .arr xs)
            → specDisplayValue JSValue.null = JSValue.null))
    ∧ responseFormatter [("tags", JSValue.null)] "gateway" "T2"
        = .ok ⟨[⟨slackColor, "Spreedly response for gateway with token T2",
            [⟨"tags", JSValue.str "null", true⟩]⟩]⟩
    ∧ responseFormatter [("list", JSValue.arr [.num 1, .num 2, .num 3])] "gateway" "T3"
        = .ok ⟨[⟨slackColor, "Spreedly response for gateway with token T3",
            [⟨"list", JSValue.str "[1,2,3]", true⟩]⟩]⟩ :=
  ⟨by decide, claimC5 _ "gateway" "T2" "tags" JSValue.null (by decide)
      (List.mem_cons_self _ _) (by decide),
    by decide, by decide⟩

/-- C6: on a tame record, every object-valued key yields the attachment
labelled with the key whose fields are the nested record's entries in
order, each `{title: subKey, value: subValue, short: true}` with the
sub-value passed through unconverted. -/
theorem claimC6 (data : Record) (t tk : String) (k : String)
    (fs : List (String × JSValue))
    (h : tame data = true) (hk : (k, JSValue.obj fs) ∈ data) :
    ∃ mainAtt rest, responseFormatter data t tk = .ok ⟨mainAtt :: rest⟩
      ∧ (⟨slackColor, k, fs.map (fun q => ⟨q.1, q.2, true⟩)⟩ : Attachment) ∈ rest := by
  refine ⟨_, _, responseFormatter_eq_specFormat data t tk h, ?_⟩
  unfold specObjGroups
  apply List.mem_filterMap.mpr
  exact ⟨(k, .obj fs), hk, rfl⟩

/-- Witness for C6 at the spec's `{token: "T1", details: {...}}` example,
including the exact full two-group payload. -/
theorem claimC6_witness :
    tame [("token", JSValue.str "T1"),
      ("details", JSValue.obj [("name", JSValue.str "x"), ("active", JSValue.bool true)])]
      = true
    ∧ (∃ mainAtt rest,
        responseFormatter [("token", JSValue.str "T1"),
            ("details", JSValue.obj [("name", JSValue.str "x"),
              ("active", JSValue.bool true)])] "payment-method" "T1"
          = .ok ⟨mainAtt :: rest⟩
        ∧ (⟨slackColor, "details",
            [("name", JSValue.str "x"), ("active", JSValue.bool true)].map
              (fun q => ⟨q.1, q.2, true⟩)⟩ : Attachment) ∈ rest)
    ∧ responseFormatter [("token", JSValue.str "T1"),
        ("details", JSValue.obj [("name", JSValue.str "x"),
          ("active", JSValue.bool true)])] "payment-method" "T1"
      = .ok ⟨[⟨slackColor, "Spreedly response for payment-method with token T1",
            [⟨"token", JSValue.str "T1", true⟩]⟩,
          ⟨slackColor, "details",
            [⟨"name", JSValue.str "x", true⟩, ⟨"active", JSValue.bool true, true⟩]⟩]⟩ :=
  ⟨by decide, claimC6 _ "payment-method" "T1" "details" _ (by decide)
      (List.mem_cons_of_mem _ (List.mem_cons_self _ _)), by decide⟩

/-- C7 (amended: the empty-object-group sentence holds for keys other
than `'main'`; a key `'main'` with an empty object merges into the
synthesized main group instead): the empty record yields exactly the main
group with no fields, and a key with an empty nested object still yields
its own zero-field group. -/
theorem claimC7 (data : Record) (t tk : String) (k : String)
    (h : tame data = true) (hk : (k, JSValue.obj []) ∈ data) :
    responseFormatter [] t tk
        = .ok ⟨[⟨slackColor, "Spreedly response for " ++ t ++ " with token " ++ tk, []⟩]⟩
      ∧ ∃ pay, responseFormatter data t tk = .ok pay
          ∧ (⟨slackColor, k, []⟩ : Attachment) ∈ pay.attachments := by
  constructor
  · rfl
  · refine ⟨_, responseFormatter_eq_specFormat data t tk h, ?_⟩
    apply List.mem_cons_of_mem
    unfold specObjGroups
    apply List.mem_filterMap.mpr
    exact ⟨(k, .obj []), hk, rfl⟩

/-- Witness for C7 at the spec's `format({}, "gateway", "T1")` example and
a concrete empty-object key. -/
theorem claimC7_witness :
    tame [("d", JSValue.obj [])] = true
    ∧ (responseFormatter [] "gateway" "T1"
        = .ok ⟨[⟨slackColor, "Spreedly response for gateway with token T1", []⟩]⟩
      ∧ ∃ pay, responseFormatter [("d", JSValue.obj [])] "gateway" "T1" = .ok pay
          ∧ (⟨slackColor, "d", []⟩ : Attachment) ∈ pay.attachments) :=
  ⟨by decide, claimC7 _ "gateway" "T1" "d" (by decide) (List.mem_cons_self _ _)⟩

/-- C7 counterexample: a key `'main'` holding an empty nested object does
not get its own group — the output has a single group labelled with the
context sentence, and no group labelled `'main'`. -/
theorem claimC7_counterexample :
    responseFormatter [("main", JSValue.obj [])] "gateway" "T1"
      = .ok ⟨[⟨slackColor, "Spreedly response for gateway with token T1", []⟩]⟩
    ∧ "main" ∉ groupLabels
        ⟨[⟨slackColor, "Spreedly response for gateway with token T1", []⟩]⟩ := by
  refine ⟨by decide, by decide⟩

/-- C8: the formatter is deterministic — structurally equal inputs give
structurally equal payloads; the embedding has no state to vary. -/
theorem claimC8 (d1 d2 : Record) (t1 t2 tk1 tk2 : String)
    (h1 : d1 = d2) (h2 : t1 = t2) (h3 : tk1 = tk2) :
    responseFormatter d1 t1 tk1 = responseFormatter d2 t2 tk2 := by
  rw [h1, h2, h3]

/-- Witness for C8 at a concrete input. -/
theorem claimC8_witness :
    ([("a", JSValue.num 1)] : Record) = [("a", JSValue.num 1)]
    ∧ responseFormatter [("a", JSValue.num 1)] "gateway" "T1"
        = responseFormatter [("a", JSValue.num 1)] "gateway" "T1" :=
  ⟨rfl, claimC8 _ _ _ _ _ _ rfl rfl rfl⟩

/-- C10 (amended: the `number`/`verificationValue` fields are only
deleted when truthy): for credit-card objects whose `number` and
`verificationValue` are each absent or truthy, both fields are gone from
the scrubbed object, and two such inputs that differ only in those fields
produce the same `{creditCard: ...}` body source, hence the same request
body under any serialization. -/
theorem claimC10 (cc1 cc2 : List (String × JSValue))
    (h1 : fieldTruthyOrAbsent cc1 "verificationValue" = true)
    (h2 : fieldTruthyOrAbsent cc1 "number" = true)
    (h3 : fieldTruthyOrAbsent cc2 "verificationValue" = true)
    (h4 : fieldTruthyOrAbsent cc2 "number" = true)
    (h5 : deleteKey "number" (deleteKey "verificationValue" cc1)
        = deleteKey "number" (deleteKey "verificationValue" cc2)) :
    updateBody cc1 = updateBody cc2
      ∧ (∀ bodyOf : JSValue → String, bodyOf (updateBody cc1) = bodyOf (updateBody cc2))
      ∧ lookupKey "number" (scrubCreditCard cc1) = none
      ∧ lookupKey "verificationValue" (scrubCreditCard cc1) = none := by
  have e1 := scrubCreditCard_eq cc1 h1 h2
  have e2 := scrubCreditCard_eq cc2 h3 h4
  have hb : updateBody cc1 = updateBody cc2 := by
    unfold updateBody
    rw [e1, e2, h5]
  refine ⟨hb, fun bodyOf => by rw [hb], ?_, ?_⟩
  · rw [e1]
    exact lookupKey_deleteKey_self
  · rw [e1, lookupKey_deleteKey_ne (by decide)]
    exact lookupKey_deleteKey_self

/-- Witness for C10 at two concrete cards differing only in `number` and
`verificationValue`. -/
theorem claimC10_witness :
    fieldTruthyOrAbsent [("number", JSValue.str "4111111111111111"),
        ("verificationValue", JSValue.str "123"), ("month", JSValue.num 12)]
        "verificationValue" = true
    ∧ (updateBody [("number", JSValue.str "4111111111111111"),
          ("verificationValue", JSValue.str "123"), ("month", JSValue.num 12)]
        = updateBody [("number", JSValue.str "4242424242424242"),
          ("verificationValue", JSValue.str "999"), ("month", JSValue.num 12)]
      ∧ (∀ bodyOf : JSValue → String,
          bodyOf (updateBody [("number", JSValue.str "4111111111111111"),
            ("verificationValue", JSValue.str "123"), ("month", JSValue.num 12)])
          = bodyOf (updateBody [("number", JSValue.str "4242424242424242"),
            ("verificationValue", JSValue.str "999"), ("month", JSValue.num 12)]))
      ∧ lookupKey "number" (scrubCreditCard [("number", JSValue.str "4111111111111111"),
          ("verificationValue", JSValue.str "123"), ("month", JSValue.num 12)]) = none
      ∧ lookupKey "verificationValue"
          (scrubCreditCard [("number", JSValue.str "4111111111111111"),
            ("verificationValue", JSValue.str "123"), ("month", JSValue.num 12)]) = none) :=
  ⟨by decide, claimC10 _ _ (by decide) (by decide) (by decide) (by decide) (by decide)⟩

/-- C10 counterexample: a falsy `number` (the empty string) is not
deleted, so the scrubbed object still carries the `number` field and two
cards differing only in `number` yield different body sources. -/
theorem claimC10_counterexample :
    updateBody [("number", JSValue.str "")]
      ≠ updateBody [("number", JSValue.str "4111111111111111")]
    ∧ lookupKey "number" (scrubCreditCard [("number", JSValue.str "")])
        = some (JSValue.str "") := by
  refine ⟨by decide, by decide⟩

/-! ### Frame lemmas for the heap embedding -/

theorem mem_setKey {k : String} {v : β} {l : List (String × β)} {p : String × β}
    (h : p ∈ setKey k v l) : p = (k, v) ∨ p ∈ l := by
  induction l with
  | nil =>
      simp [setKey] at h
      exact Or.inl h
  | cons q qs ih =>
      unfold setKey at h
      by_cases hq : q.1 = k
      · rw [if_pos hq] at h
        rcases List.mem_cons.mp h with rfl | h
        · exact Or.inl rfl
        · exact Or.inr (List.mem_cons_of_mem _ h)
      · rw [if_neg hq] at h
        rcases List.mem_cons.mp h with rfl | h
        · exact Or.inr (List.mem_cons_self _ _)
        · rcases ih h with h | h
          · exact Or.inl h
          · exact Or.inr (List.mem_cons_of_mem _ h)

theorem prefix_set {σ0 σ : Store} {a : Nat} {c : HCell}
    (h : σ0 <+: σ) (ha : σ0.length ≤ a) : σ0 <+: σ.set a c := by
  rcases h with ⟨t, rfl⟩
  rw [List.set_append]
  rw [if_neg (by omega)]
  exact ⟨_, rfl⟩

theorem prefix_pushElem {σ0 σ : Store} {a : Nat} {v : HVal}
    (h : σ0 <+: σ) (ha : σ0.length ≤ a) : σ0 <+: pushElem σ a v := by
  unfold pushElem
  split
  · exact prefix_set h ha
  · exact h

theorem prefix_setField {σ0 σ : Store} {a : Nat} {k : String} {v : HVal}
    (h : σ0 <+: σ) (ha : σ0.length ≤ a) : σ0 <+: setField σ a k v := by
  unfold setField
  split
  · exact prefix_set h ha
  · exact h

theorem prefix_pushEntry {σ0 σ : Store} {a : Nat} {title : String} {v : HVal}
    (h : σ0 <+: σ) (ha : σ0.length ≤ a) : σ0 <+: pushEntry σ a title v := by
  unfold pushEntry allocEntry alloc
  exact prefix_pushElem (h.trans ⟨_, rfl⟩) ha

theorem msgCellOk_getField {n : Nat} {σ : Store} {msg : Nat} {k : String} {m : Nat}
    (h : msgCellOk n σ msg) (hg : getField σ msg k = HVal.ref m) : n ≤ m := by
  obtain ⟨_, fs, hcell, hrefs⟩ := h
  unfold getField at hg
  rw [hcell] at hg
  have hg' : (lookupKey k fs).getD (HVal.prim HPrim.undefined) = HVal.ref m := hg
  cases hl : lookupKey k fs with
  | none => rw [hl] at hg'; cases hg'
  | some w =>
      rw [hl] at hg'
      exact hrefs (k, w) (lookupKey_mem hl) m hg'

theorem prefix_pushToGroup {σ0 σ : Store} {msg : Nat} {gk title : String} {v : HVal}
    (h : σ0 <+: σ) (hok : msgCellOk σ0.length σ msg) :
    σ0 <+: pushToGroup σ msg gk title v := by
  unfold pushToGroup
  split
  · next m heq => exact prefix_pushEntry h (msgCellOk_getField hok heq)
  · exact h

theorem msgCellOk_alloc {n : Nat} {σ : Store} {msg : Nat} {c : HCell}
    (h : msgCellOk n σ msg) : msgCellOk n (σ ++ [c]) msg := by
  obtain ⟨hm, fs, hcell, hrefs⟩ := h
  have hlt : msg < σ.length := (List.getElem?_eq_some.mp hcell).1
  exact ⟨hm, fs, by rw [List.getElem?_append_left hlt]; exact hcell, hrefs⟩

theorem msgCellOk_pushElem {n : Nat} {σ : Store} {msg a : Nat} {v : HVal}
    (h : msgCellOk n σ msg) : msgCellOk n (pushElem σ a v) msg := by
  obtain ⟨hm, fs, hcell, hrefs⟩ := h
  unfold pushElem
  split
  · next es heq =>
      have hne : a ≠ msg := by
        intro hh
        rw [hh, hcell] at heq
        cases heq
      exact ⟨hm, fs, by rw [List.getElem?_set_ne hne]; exact hcell, hrefs⟩
  · exact ⟨hm, fs, hcell, hrefs⟩

theorem msgCellOk_pushEntry {n : Nat} {σ : Store} {msg a : Nat} {title : String}
    {v : HVal} (h : msgCellOk n σ msg) : msgCellOk n (pushEntry σ a title v) msg := by
  unfold pushEntry allocEntry alloc
  exact msgCellOk_pushElem (msgCellOk_alloc h)

theorem msgCellOk_pushToGroup {n : Nat} {σ : Store} {msg : Nat} {gk title : String}
    {v : HVal} (h : msgCellOk n σ msg) :
    msgCellOk n (pushToGroup σ msg gk title v) msg := by
  unfold pushToGroup
  split
  · exact msgCellOk_pushEntry h
  · exact h

theorem msgCellOk_setField {n : Nat} {σ : Store} {msg : Nat} {k : String} {f : Nat}
    (h : msgCellOk n σ msg) (hf : n ≤ f) :
    msgCellOk n (setField σ msg k (HVal.ref f)) msg := by
  obtain ⟨hm, fs, hcell, hrefs⟩ := h
  have hlt : msg < σ.length := (List.getElem?_eq_some.mp hcell).1
  unfold setField
  rw [hcell]
  refine ⟨hm, setKey k (HVal.ref f) fs, ?_, ?_⟩
  · rw [List.getElem?_set_self (by simpa using hlt)]
  · intro p hp m hpm
    rcases mem_setKey hp with rfl | hp
    · have hv : HVal.ref f = HVal.ref m := hpm
      injection hv with hv
      rw [← hv]
      exact hf
    · exact hrefs p hp m hpm

theorem prefix_foldl_pushToGroup {σ0 : Store} (l : List (String × HVal)) (gk : String) :
    ∀ (σ : Store) (msg : Nat), σ0 <+: σ → msgCellOk σ0.length σ msg →
      σ0 <+: l.foldl (fun σ' q => pushToGroup σ' msg gk q.1 q.2) σ
      ∧ msgCellOk σ0.length (l.foldl (fun σ' q => pushToGroup σ' msg gk q.1 q.2) σ) msg := by
  induction l with
  | nil => intro σ msg h hok; exact ⟨h, hok⟩
  | cons q qs ih =>
      intro σ msg h hok
      rw [List.foldl_cons]
      exact ih _ msg (prefix_pushToGroup h hok) (msgCellOk_pushToGroup hok)

theorem prefix_heapLoop1 {σ0 : Store} (js : Store → HVal → HPrim)
    (l : List (String × HVal)) :
    ∀ (σ : Store) (msg : Nat), σ0 <+: σ → msgCellOk σ0.length σ msg →
      σ0 <+: (heapLoop1 js msg σ l).1 := by
  induction l with
  | nil => intro σ msg h _; exact h
  | cons p ps ih =>
      intro σ msg h hok
      obtain ⟨k, v⟩ := p
      cases hc : classifyH σ v with
      | throwCase => simp only [heapLoop1, hc]; exact h
      | objCase fs =>
          simp only [heapLoop1, hc, alloc]
          have h1 : σ0 <+: σ ++ [HCell.arrC []] := h.trans ⟨_, rfl⟩
          have hok1 : msgCellOk σ0.length (σ ++ [HCell.arrC []]) msg := msgCellOk_alloc hok
          have h2 : σ0 <+: setField (σ ++ [HCell.arrC []]) msg k (HVal.ref σ.length) :=
            prefix_setField h1 hok1.1
          have hok2 : msgCellOk σ0.length
              (setField (σ ++ [HCell.arrC []]) msg k (HVal.ref σ.length)) msg :=
            msgCellOk_setField hok1 h.length_le
          obtain ⟨h3, hok3⟩ := prefix_foldl_pushToGroup (forInPairs fs) k _ msg h2 hok2
          exact ih _ msg h3 hok3
      | jsonCase =>
          simp only [heapLoop1, hc]
          exact ih _ msg (prefix_pushToGroup h hok) (msgCellOk_pushToGroup hok)
      | scalarCase =>
          simp only [heapLoop1, hc]
          exact ih _ msg (prefix_pushToGroup h hok) (msgCellOk_pushToGroup hok)

theorem prefix_heapLoop2_aux {σ0 : Store} (t tk : String) (attsArr : Nat)
    (l : List (String × HVal)) :
    ∀ σ : Store, σ0 <+: σ → σ0.length ≤ attsArr →
      σ0 <+: l.foldl (fun σ' p =>
        pushElem (alloc σ' (HCell.objC [("color", .prim (.str slackColor)),
          ("pretext", .prim (.str (if p.1 = "main" then
              "Spreedly response for " ++ t ++ " with token " ++ tk
            else p.1))),
          ("fields", p.2)])).1 attsArr (HVal.ref (alloc σ' (HCell.objC
            [("color", .prim (.str slackColor)),
             ("pretext", .prim (.str (if p.1 = "main" then
                "Spreedly response for " ++ t ++ " with token " ++ tk
              else p.1))),
             ("fields", p.2)])).2)) σ := by
  induction l with
  | nil => intro σ h _; exact h
  | cons q qs ih =>
      intro σ h ha
      rw [List.foldl_cons]
      exact ih _ (prefix_pushElem (h.trans ⟨_, rfl⟩) ha) ha

theorem prefix_heapLoop2 {σ0 : Store} (t tk : String)
    (mf : List (String × HVal)) (attsArr : Nat) (σ : Store)
    (h : σ0 <+: σ) (ha : σ0.length ≤ attsArr) :
    σ0 <+: heapLoop2 t tk mf attsArr σ := by
  unfold heapLoop2 alloc
  exact prefix_heapLoop2_aux t tk attsArr (forInPairs mf) σ h ha

/-- C9: the heap-level formatter never writes below the input store — the
entire initial store (the input record's object graph included) is a
prefix of the final store, whatever `JSON.stringify` returns. -/
theorem claimC9 (js : Store → HVal → HPrim) (σ0 : Store) (v : HVal)
    (t tk : String) :
    σ0 <+: (heapResponseFormatter js σ0 v t tk).1 := by
  simp only [heapResponseFormatter, alloc]
  have hpre : σ0 <+: σ0 ++ [HCell.arrC []]
      ++ [HCell.objC [("main", HVal.ref σ0.length)]] := by
    rw [List.append_assoc]
    exact ⟨_, rfl⟩
  have hok : msgCellOk σ0.length
      (σ0 ++ [HCell.arrC []] ++ [HCell.objC [("main", HVal.ref σ0.length)]])
      (σ0 ++ [HCell.arrC []]).length := by
    refine ⟨by simp, [("main", HVal.ref σ0.length)], ?_, ?_⟩
    · rw [List.getElem?_append_right (Nat.le_refl _)]
      simp
    · rintro p hp m hpm
      simp only [List.mem_singleton] at hp
      subst hp
      have hv : HVal.ref σ0.length = HVal.ref m := hpm
      injection hv with hv
      omega
  have h1 := prefix_heapLoop1 js
    (hOwnPairs (σ0 ++ [HCell.arrC []] ++ [HCell.objC [("main", HVal.ref σ0.length)]]) v)
    _ _ hpre hok
  split
  · refine prefix_heapLoop2 t tk _ _ _ ?_ ?_
    · exact (h1.trans ⟨_, rfl⟩).trans ⟨_, rfl⟩
    · exact h1.length_le
  · exact h1

end Spreedly
